import Mathlib

/-!
Verification development for the static-condensation (exposed/private dof)
module `fem/ep.cpp` of this mfem fork.  The C++ classes are shallowly
embedded over exact rational arithmetic: dense and sparse matrices become
functions `Nat -> Nat -> Rat`, vectors become `Nat -> Rat` (or `Int -> Rat`
where the source indexes C arrays with possibly sign-encoded ints), and the
imperative loops become explicit left folds so that write order and
overwrites are preserved.
-/

namespace MfemEP

/-- Sum of `f 0 + ... + f (n-1)`, the shape of the `for` loops in `ep.cpp`. -/
def rsum : Nat → (Nat → ℚ) → ℚ
  | 0, _ => 0
  | n + 1, f => rsum n f + f n

/-- Pointwise update of an `Int`-indexed vector (a C array write `v[i] = a`). -/
def updI (v : Int → ℚ) (i : Int) (a : ℚ) : Int → ℚ :=
  fun t => if t = i then a else v t

/-- Pointwise update of a `Nat`-indexed vector. -/
def updN (v : Nat → ℚ) (i : Nat) (a : ℚ) : Nat → ℚ :=
  fun t => if t = i then a else v t

/-- Decode a possibly sign-encoded dof id: a negative id `i` stands for the
true id `-1-i` (see `ep.cpp` lines 139 and 154, which encode as `-1 - id`). -/
def decIdx (i : Int) : Nat :=
  if 0 ≤ i then i.toNat else (-1 - i).toNat

/-- Orientation sign carried by a sign-encoded dof id: `-1` when the id is
negative-encoded (the value must be negated), `1` otherwise. -/
def sgnQ (i : Int) : ℚ :=
  if 0 ≤ i then 1 else -1

/-! ## EPDoFs (`DofPartition`): exposed/private dof counts and offsets

`EPDoFs::EPDoFs` (ep.cpp 41-52) sums the per-element interior dof counts
(`fec->DofForGeometry(mesh->GetElementBaseGeometry(i))`) to get
`nPrivateDofs_` and sets `nExposedDofs_ = fes->GetNDofs() - nPrivateDofs_`.
`EPDoFs::GetElementDofs` (ep.cpp 171-185) lazily builds the prefix-sum array
`priOffset_` of the same per-element counts. -/

/-- Abstract view of the finite element space data that `EPDoFs` reads:
the element count, the per-element interior dof count, and the total dof
count of the space. -/
structure FES where
  nElems : Nat
  intDof : Nat → Nat
  ndofs : Nat

/-- The constructor loop of `EPDoFs::EPDoFs`: partial sums of the interior
dof counts of elements `0..i-1`. -/
def nPrivAux (f : FES) : Nat → Nat
  | 0 => 0
  | i + 1 => nPrivAux f i + f.intDof i

/-- `nPrivateDofs_` as computed by `EPDoFs::EPDoFs`. -/
def nPrivateDofs (f : FES) : Nat := nPrivAux f f.nElems

/-- `nExposedDofs_ = fes->GetNDofs() - nPrivateDofs_` (C++ `int`, so `Int`). -/
def nExposedDofs (f : FES) : Int := (f.ndofs : Int) - (nPrivateDofs f : Int)

/-- The lazily built private-offset prefix sum `priOffset_` of
`EPDoFs::GetElementDofs` (ep.cpp 176-181): `priOffset_[0] = 0`,
`priOffset_[i+1] = priOffset_[i] + intDof i`. -/
def priOffset (f : FES) : Nat → Nat
  | 0 => 0
  | i + 1 => priOffset f i + f.intDof i

/-- Exposed-dof count as a `Nat` (valid once `nPrivateDofs f ≤ ndofs`). -/
def nExpN (f : FES) : Nat := f.ndofs - nPrivateDofs f

/-- Membership of a global dof `d` in the exposed set (the head segment
`[0, nExposed)` of the global numbering: vertex/edge/face dofs). -/
def exposedSet (f : FES) (d : Nat) : Prop := d < nExpN f

/-- Membership of a global dof `d` in element `e`'s contiguous private
sub-range `[nExposed + priOffset e, nExposed + priOffset (e+1))`. -/
def inPriRange (f : FES) (e d : Nat) : Prop :=
  nExpN f + priOffset f e ≤ d ∧ d < nExpN f + priOffset f (e + 1)

instance (f : FES) (d : Nat) : Decidable (exposedSet f d) := by
  unfold exposedSet; infer_instance

instance (f : FES) (e d : Nat) : Decidable (inPriRange f e d) := by
  unfold inPriRange; infer_instance

/-! ## EPDoFs::GetElementDofs / BuildElementToDofTable (ep.cpp 60-161)

The direct derivation of the ordered, sign-tagged exposed dof ids of one
element from vertex/edge/face incidence, and the lazily cached
element-to-dof table. -/

/-- Abstract view of the mesh and finite element collection data read by
`EPDoFs::GetElementDofs`: dimension, entity counts, per-entity dof counts
(`fec->DofForGeometry`), per-element incidence with orientations, and the
orientation permutations (`fec->DofOrderForOrientation`, whose entries may
be negative-encoded). -/
structure MeshFE where
  dim : Nat
  nElems : Nat
  numVerts : Nat
  numEdges : Nat
  nvPoint : Nat
  neSeg : Nat
  elemVerts : Nat → List Nat
  elemEdges : Nat → List (Nat × Nat)
  hasFaceDofs : Nat → Bool
  elemFaces : Nat → List (Nat × Nat)
  faceGeom : Nat → Nat
  fdofGeom : Nat → Nat
  segOrd : Nat → Nat → Int
  faceOrd : Nat → Nat → Nat → Int

/-- The direct derivation branch of `EPDoFs::GetElementDofs`
(ep.cpp 96-159): vertex dofs, then edge dofs permuted and sign-encoded by
`DofOrderForOrientation(SEGMENT, Eo[k])`, then (in 3D, when the collection
has face dofs) face dofs permuted and sign-encoded per face orientation.
A negative permutation entry `ind` encodes id `base` as `-1-(base+(-1-ind))`
exactly as in the source. -/
def directDofs (M : MeshFE) (elem : Nat) : List Int :=
  let nvdofs : Nat := M.numVerts * M.nvPoint
  let nedofs : Nat := if M.dim > 1 then M.numEdges * M.neSeg else 0
  let nv : Nat := M.nvPoint
  let ne : Nat := if M.dim > 1 then M.neSeg else 0
  let V : List Nat := if nv > 0 then M.elemVerts elem else []
  let EEo : List (Nat × Nat) := if ne > 0 then M.elemEdges elem else []
  let useF : Bool := decide (M.dim = 3) && M.hasFaceDofs elem
  let FFo : List (Nat × Nat) := if useF then M.elemFaces elem else []
  let nf : Nat := if useF then
      (match FFo with
       | [] => 0
       | f :: _ => M.fdofGeom (M.faceGeom f.1))
    else 0
  let vertPart : List Int :=
    (V.map (fun v => (List.range nv).map (fun j => ((v * nv + j : Nat) : Int)))).flatten
  let edgePart : List Int :=
    (EEo.map (fun eo => (List.range ne).map (fun j =>
      let ind := M.segOrd eo.2 j
      if ind < 0 then
        -1 - (((nvdofs + eo.1 * ne : Nat) : Int) + (-1 - ind))
      else
        ((nvdofs + eo.1 * ne : Nat) : Int) + ind))).flatten
  let facePart : List Int :=
    (FFo.map (fun fo => (List.range nf).map (fun j =>
      let ind := M.faceOrd (M.faceGeom fo.1) fo.2 j
      if ind < 0 then
        -1 - (((nvdofs + nedofs + fo.1 * nf : Nat) : Int) + (-1 - ind))
      else
        ((nvdofs + nedofs + fo.1 * nf : Nat) : Int) + ind))).flatten
  vertPart ++ edgePart ++ facePart

/-- The lazily built element-to-exposed-dof table of `EPDoFs`
(`expDoFsByElem_`): `none` until `BuildElementToDofTable` is called. -/
structure EPDoFsState where
  table? : Option (List (List Int))

/-- `EPDoFs::GetElementDofs(elem, dofs)` (ep.cpp 86-161): a table lookup
when the cached table exists, otherwise the direct derivation.  The state
is returned unchanged: this routine never builds the table itself. -/
def getElementDofs (M : MeshFE) (s : EPDoFsState) (elem : Nat) :
    List Int × EPDoFsState :=
  match s.table? with
  | some t => (t.getD elem [], s)
  | none => (directDofs M elem, s)

/-- `EPDoFs::BuildElementToDofTable` (ep.cpp 60-84): a no-op when the table
already exists; otherwise it fills row `i` of a fresh table with the result
of `GetElementDofs(i)` (the direct derivation, since `expDoFsByElem_` is
only installed after the fill loops). -/
def buildElementToDofTable (M : MeshFE) (s : EPDoFsState) : EPDoFsState :=
  match s.table? with
  | some _ => s
  | none =>
      { table? := some ((List.range M.nElems).map
          (fun i => (getElementDofs M s i).1)) }

/-! ## EPField::initFromInterleavedVector (ep.cpp 327-365)

Per element, the exposed loop copies `x[allDoFs[j]]` into
`exposed[expDoFs[j]]` when `allDoFs[j] >= 0` and otherwise copies
`x[1-allDoFs[j]]` into `exposed[1-expDoFs[j]]` (the literal source text),
and the private loop copies `x[priDoFs[j]]` into
`private[priOffset + j]`. -/

/-- Per-element dof maps consumed by `initFromInterleavedVector`:
`fes->GetElementDofs` (`allDoFs`), `fes->GetElementInteriorDofs`
(`priDoFs`), the exposed ids `expDoFs` from `EPDoFs::GetElementDofs`, and
the element's private offset and count from the prefix sum. -/
structure ElemMaps where
  allDoFs : List Int
  priDoFs : List Int
  expDoFs : List Int
  priOff : Nat
  nPri : Nat

/-- One iteration of the exposed-dof copy loop (ep.cpp 354-359), on the
pair `p = (allDoFs[j], expDoFs[j])`. -/
def expStep (x : Int → ℚ) (p : Int × Int) (xE : Int → ℚ) : Int → ℚ :=
  if 0 ≤ p.1 then updI xE p.2 (x p.1)
  else updI xE (1 - p.2) (x (1 - p.1))

/-- The exposed-dof copy loop of one element: `j` runs over
`expDoFs.Size()` and reads `allDoFs[j]` at the same position. -/
def writeExpElem (x : Int → ℚ) (em : ElemMaps) (xE : Int → ℚ) : Int → ℚ :=
  (em.allDoFs.zip em.expDoFs).foldl (fun acc p => expStep x p acc) xE

/-- The private-dof copy loop of one element (ep.cpp 361-363):
`private[priOff + j] = x[priDoFs[j]]` for `j < nPri`. -/
def writePriElem (x : Int → ℚ) (em : ElemMaps) (xP : Nat → ℚ) : Nat → ℚ :=
  (List.range em.nPri).foldl
    (fun acc j => updN acc (em.priOff + j) (x (em.priDoFs.getD j 0))) xP

/-- A field space configuration: the per-element maps in element order and
the partition sizes. -/
structure FieldCfg where
  elems : List ElemMaps
  nExp : Nat
  nPri : Nat
  ndofs : Nat

/-- `EPField::initFromInterleavedVector` (ep.cpp 327-365): starting from
fresh (zero) exposed and private vectors, run the exposed and private copy
loops over all elements in order. -/
def initFromInterleaved (cfg : FieldCfg) (x : Int → ℚ) :
    (Int → ℚ) × (Nat → ℚ) :=
  cfg.elems.foldl
    (fun acc em => (writeExpElem x em acc.1, writePriElem x em acc.2))
    (fun _ => 0, fun _ => 0)

/-- Modelled from the spec: the inverse reconstruction of the interleaved
vector from the exposed/private split ("Inverse operation reconstructs the
interleaved vector", spec 4.3), which `ep.cpp` itself does not contain.
Per element, each exposed pair writes `x[-1-i]` negated when the id `i` is
negative-encoded ("a negative-encoded id i means use id -1-i negated"),
and each private slot is copied back to its interior dof id. -/
def reconstructInterleaved (cfg : FieldCfg) (xE : Int → ℚ) (xP : Nat → ℚ) :
    Int → ℚ :=
  cfg.elems.foldl
    (fun acc em =>
      let acc1 := (em.allDoFs.zip em.expDoFs).foldl
        (fun a p => updI a (decIdx p.1) (sgnQ p.1 * xE (decIdx p.2))) acc
      (List.range em.nPri).foldl
        (fun a j => updI a (em.priDoFs.getD j 0) (xP (em.priOff + j))) acc1)
    (fun _ => 0)

/-- Round trip: split an interleaved vector and reconstruct it. -/
def roundTrip (cfg : FieldCfg) (x : Int → ℚ) : Int → ℚ :=
  reconstructInterleaved cfg (initFromInterleaved cfg x).1
    (initFromInterleaved cfg x).2

/-! ## EPMatrix (`CondensationOperator`) -/

/-- The fatal failure modes of the module, named as in spec section 7. -/
inductive EPError where
  | unsupportedConfiguration : EPError
  | partitionInconsistency : EPError
  | assertionFailed : EPError

/-- Generic prefix sum, the shape of every offset array in `ep.cpp`. -/
def prefixSum (c : Nat → Nat) : Nat → Nat
  | 0 => 0
  | i + 1 => prefixSum c i + c i

/-- Overwrite the contiguous range `[offW, offW + hgt)` of `y` with
`val 0, ..., val (hgt-1)` (one `DenseMatrix::Mult` into a slice of a
private vector). -/
def blockWrite (offW hgt : Nat) (val : Nat → ℚ) (y : Nat → ℚ) : Nat → ℚ :=
  fun t => if offW ≤ t ∧ t < offW + hgt then val (t - offW) else y t

/-- The per-element loop shape shared by `EPMatrix::Mult`,
`EPMatrix::ReducedRHS` and `EPMatrix::SolvePrivateDoFs`: elements
`0, ..., n-1` in order, element `i` overwriting the slice at `offW i` of
height `hgt i` with `val i`. -/
def blockLoop (offW hgt : Nat → Nat) (val : Nat → Nat → ℚ) :
    Nat → (Nat → ℚ) → (Nat → ℚ)
  | 0, y => y
  | i + 1, y => blockWrite (offW i) (hgt i) (val i) (blockLoop offW hgt val i y)

/-- The state of an assembled `EPMatrix` as used by `EPMatrix::Mult`
(ep.cpp 750-769): global `Mee` (`nExpL x nExpR`), `Mep`
(`nExpL x nPriR`), optional `Mpe` (`nPriL x nExpR`, materialized only
when left and right partitions differ, ep.cpp 669-672), the per-element
dense blocks `mpp i` (`cntL i x cntR i`), and the per-element private
counts of both sides. -/
structure EPMat where
  nExpL : Nat
  nExpR : Nat
  nPriL : Nat
  nPriR : Nat
  Mee : Nat → Nat → ℚ
  Mep : Nat → Nat → ℚ
  MpeOpt : Option (Nat → Nat → ℚ)
  nElems : Nat
  mpp : Nat → Nat → Nat → ℚ
  cntL : Nat → Nat
  cntR : Nat → Nat

/-- Left private offsets (`epdofsL_->GetPrivateOffsets()`). -/
def offL (M : EPMat) : Nat → Nat := prefixSum M.cntL

/-- Right private offsets (`epdofsR_->GetPrivateOffsets()`). -/
def offR (M : EPMat) : Nat → Nat := prefixSum M.cntR

/-- The exposed part of `EPMatrix::Mult` (ep.cpp 753-754):
`y.exposed = Mee * x.exposed` then `y.exposed += Mep * x.private`. -/
def multExp (M : EPMat) (xE xP : Nat → ℚ) : Nat → ℚ :=
  fun k => rsum M.nExpR (fun j => M.Mee k j * xE j) +
    rsum M.nPriR (fun j => M.Mep k j * xP j)

/-- The private part of `EPMatrix::Mult` (ep.cpp 756-768): per element `i`,
`Mpp_[i]->Mult(&x.private[priOffL[i]], &y.private[priOffR[i]])`
(an overwrite), then `y.private += Mpe * x.exposed` when `Mpe` exists and
`y.private += Mep^T * x.exposed` otherwise. -/
def multPri (M : EPMat) (xE xP : Nat → ℚ) : Nat → ℚ :=
  let yloop := blockLoop (offR M) M.cntL
    (fun i k => rsum (M.cntR i) (fun j => M.mpp i k j * xP (offL M i + j)))
    M.nElems (fun _ => 0)
  fun r => yloop r +
    (match M.MpeOpt with
     | some Mpe => rsum M.nExpR (fun j => Mpe r j * xE j)
     | none => rsum M.nExpL (fun k => M.Mep k r * xE k))

/-- `EPMatrix::Mult(const EPField&, EPField&)` on the exposed/private
split of `x`, producing the split of `y`. -/
def epMult (M : EPMat) (xE xP : Nat → ℚ) : (Nat → ℚ) × (Nat → ℚ) :=
  (multExp M xE xP, multPri M xE xP)

/-- `EPMatrix::Mult(const Vector&, Vector&)` (ep.cpp 771-775): the generic
`Operator` entry point is `assert(false)` and never produces a result. -/
def epMultVector (_x _y : Nat → ℚ) : Except EPError Unit :=
  Except.error EPError.assertionFailed

/-- The configuration `EPMatrix::Assemble` (ep.cpp 655-748) is run on, as
far as `ReducedRHS` is concerned: whether the left and right `EPDoFs` are
the same object, the global sizes, the assembled global `Mep`, the
per-element private counts, and the per-element inverse of `mpp`
(`Mpp_[i]->Inverse()`, a dense inverse from the core library). -/
structure EPCfg where
  leftEqRight : Bool
  nExp : Nat
  nPri : Nat
  nElems : Nat
  Mep : Nat → Nat → ℚ
  cnt : Nat → Nat
  mppInv : Nat → Nat → Nat → ℚ

/-- The part of the assembled state that `EPMatrix::ReducedRHS` reads.
`mppInvOpt` is `some` exactly when `reducedRHS_` and `vecp_` are also
allocated: all three happen iff `epdofsL_ == epdofsR_`
(ep.cpp 658-661 and 676-677). -/
structure EPAssembled where
  nExp : Nat
  nPri : Nat
  nElems : Nat
  Mep : Nat → Nat → ℚ
  cnt : Nat → Nat
  mppInvOpt : Option (Nat → Nat → Nat → ℚ)

/-- The allocation pattern of `EPMatrix::Assemble`: `MppInv_` (together
with `reducedRHS_` and `vecp_`) exists iff the left and right dof
partitions are the same object. -/
def assembleAux (c : EPCfg) : EPAssembled :=
  { nExp := c.nExp, nPri := c.nPri, nElems := c.nElems, Mep := c.Mep,
    cnt := c.cnt,
    mppInvOpt := if c.leftEqRight then some c.mppInv else none }

/-- `EPMatrix::ReducedRHS` (ep.cpp 777-799).  When `MppInv_` was never
built (left and right partitions differ) the routine dereferences the
null `MppInv_`/`vecp_`/`reducedRHS_` state and aborts fatally without a
result; the abort is modelled as the spec's **UnsupportedConfiguration**
error.  Otherwise, per element `i` it overwrites the slice of `vecp_` at
the element's private offset with `MppInv_[i] * x.private[range]`, and
returns `x.exposed - Mep * vecp_`. -/
def reducedRHS (A : EPAssembled) (xE xP : Nat → ℚ) :
    Except EPError (Nat → ℚ) :=
  match A.mppInvOpt with
  | none => Except.error EPError.unsupportedConfiguration
  | some inv =>
      let vecp := blockLoop (prefixSum A.cnt) A.cnt
        (fun i k => rsum (A.cnt i)
          (fun j => inv i k j * xP (prefixSum A.cnt i + j)))
        A.nElems (fun _ => 0)
      Except.ok (fun k => xE k - rsum A.nPri (fun r => A.Mep k r * vecp r))

/-! ## Per-element Schur reduction inside `EPMatrix::Assemble`
(ep.cpp 691-743), left == right configuration. -/

/-- The per-element data of one `Assemble` iteration in the symmetric
(left == right) configuration: the element matrix `elmat` from the
bilinear form callback (size `(nE+nP) x (nE+nP)`, exposed rows/columns
first), the sign-tagged exposed dof ids, and the inverse of the
private-private block delivered by `DenseMatrix::Inverse`. -/
structure ElemSchur where
  nE : Nat
  nP : Nat
  expDoFs : List Int
  elmat : Nat → Nat → ℚ
  mppInv : Nat → Nat → ℚ

/-- `mee = elmat(0:nE, 0:nE)` (ep.cpp 700). -/
def mee (e : ElemSchur) (i j : Nat) : ℚ := e.elmat i j

/-- `mep = elmat(0:nE, nE:nE+nP)` (ep.cpp 704). -/
def mep (e : ElemSchur) (i j : Nat) : ℚ := e.elmat i (e.nE + j)

/-- `mpe = elmat(nE:nE+nP, 0:nE)`, the true private-exposed block. -/
def mpe (e : ElemSchur) (i j : Nat) : ℚ := e.elmat (e.nE + i) j

/-- The data buffer of the dense matrix `mep`: `mfem::DenseMatrix` stores
its entries in column-major order (`data[i + j*height]`, height `nE`), so
`mep.Data()[t] = mep(t mod nE, t / nE)`. -/
def mepBuf (e : ElemSchur) (t : Nat) : ℚ := mep e (t % e.nE) (t / e.nE)

/-- `vcMpe` as built in ep.cpp 729-731: the contiguous slice
`&mep.Data()[jj*nPriR]` of length `nPriR` wrapped as a vector. -/
def vcMpe (e : ElemSchur) (jj k : Nat) : ℚ := mepBuf e (jj * e.nP + k)

/-- `vpR = MppInv * vcMpe` (ep.cpp 732). -/
def vpR (e : ElemSchur) (jj k : Nat) : ℚ :=
  rsum e.nP (fun l => e.mppInv k l * vcMpe e jj l)

/-- The `mrr` block the code computes (ep.cpp 728-741):
`mrr(ii,jj) = -(mep * vpR)(ii)` then `mrr += mee`. -/
def mrrCode (e : ElemSchur) (ii jj : Nat) : ℚ :=
  mee e ii jj - rsum e.nP (fun k => mep e ii k * vpR e jj k)

/-- The element Schur complement the spec's invariant names:
`mee - mep * mpp^{-1} * mpe`. -/
def mrrSchur (e : ElemSchur) (ii jj : Nat) : ℚ :=
  mee e ii jj - rsum e.nP (fun k => mep e ii k *
    rsum e.nP (fun l => e.mppInv k l * mpe e l jj))

/-- Modelled from the spec: `SparseMatrix::AddSubMatrix` (core library),
which scatters a dense block through sign-tagged row/column id arrays,
"indices from each side's exposed dof table, sign applied" (spec 4.5). -/
def addSubMatrix (rows cols : List Int) (sub : Nat → Nat → ℚ)
    (A : Nat → Nat → ℚ) : Nat → Nat → ℚ :=
  fun r c => A r c + rsum rows.length (fun ii => rsum cols.length (fun jj =>
    if decIdx (rows.getD ii 0) = r ∧ decIdx (cols.getD jj 0) = c then
      sgnQ (rows.getD ii 0) * sgnQ (cols.getD jj 0) * sub ii jj
    else 0))

/-- The global reduced matrix `Mrr_` accumulated by `EPMatrix::Assemble`
over the element loop (ep.cpp 691-743), left == right. -/
def assembleMrr (es : List ElemSchur) : Nat → Nat → ℚ :=
  es.foldl (fun A e => addSubMatrix e.expDoFs e.expDoFs (mrrCode e) A)
    (fun _ _ => 0)

/-- The elementwise sum of scattered Schur complements named by the
spec's invariant for `Mrr`. -/
def schurMrr (es : List ElemSchur) : Nat → Nat → ℚ :=
  es.foldl (fun A e => addSubMatrix e.expDoFs e.expDoFs (mrrSchur e) A)
    (fun _ _ => 0)

/-! ## ParEPField::updateParExposedDoFs (`reduce()`, ep.cpp 458-471) -/

/-- One field copy of a `DistributedFieldStorage`: the rank-local exposed
vector `E` and the true-exposed vector `T`. -/
structure RedState where
  E : Nat → ℚ
  T : Nat → ℚ

/-- `ParEPField::updateParExposedDoFs` for one field, with the exposed
restriction operator `Pe` (`m` local rows, `n` true columns):
`Pe->MultTranspose(E, T)` (sums every contribution into the true-exposed
vector) then `Pe->Mult(T, E)` (redistributes the summed values). -/
def reduceOnce (m n : Nat) (Pe : Nat → Nat → ℚ) (s : RedState) : RedState :=
  let T2 : Nat → ℚ := fun t => rsum m (fun l => Pe l t * s.E l)
  { E := fun l => rsum n (fun t => Pe l t * T2 t), T := T2 }

/-! ## ParEPDoFs::ParEPDoFs column rewrite (ep.cpp 233-239) -/

/-- The rank-location scan `while (J[j] >= TDoFPart[r+1]) r++` on the
column index `c` of one nonzero: the least rank `r < numProcs` whose
true-dof range `[TDoFPart[r], TDoFPart[r+1])` bounds `c` from above, or
`none` when the scan runs past the last partition boundary (an
out-of-bounds read of `TDoFPart` in the source). -/
def findRank (tpart : Nat → Nat) (numProcs c : Nat) : Option Nat :=
  (List.range numProcs).find? (fun r => decide (c < tpart (r + 1)))

/-- Sum of `f 0 + ... + f (r-1)` over the integers: the cumulative
private-dof count subtracted at ep.cpp 237-238. -/
def isum : Nat → (Nat → Int) → Int
  | 0, _ => 0
  | r + 1, f => isum r f + f r

/-- The column rewrite of one nonzero of the merged unreduced operator
(ep.cpp 233-239): locate the owning rank, then subtract the cumulative
private counts of all preceding ranks.  A column beyond every boundary
makes the scan leave the partition array: the fatal abort is modelled as
the spec's **PartitionInconsistency** error. -/
def rewriteCol (tpart : Nat → Nat) (nPri : Nat → Int) (numProcs c : Nat) :
    Except EPError Int :=
  match findRank tpart numProcs c with
  | none => Except.error EPError.partitionInconsistency
  | some r => Except.ok ((c : Int) - isum r nPri)

/-! ## Write-list views of the copy loops

Each imperative copy loop of `initFromInterleavedVector` and of the
spec-modelled inverse is a left fold of single-slot writes; these
definitions expose the same loops as explicit `(position, value)` write
lists, which the round-trip proof reasons about. -/

/-- Apply a list of writes to an `Int`-indexed vector, in order. -/
def applyWritesI (l : List (Int × ℚ)) (s : Int → ℚ) : Int → ℚ :=
  l.foldl (fun acc p => updI acc p.1 p.2) s

/-- Apply a list of writes to a `Nat`-indexed vector, in order. -/
def applyWritesN (l : List (Nat × ℚ)) (s : Nat → ℚ) : Nat → ℚ :=
  l.foldl (fun acc p => updN acc p.1 p.2) s

/-- The writes performed by the exposed copy loop of one element. -/
def expWritesElem (x : Int → ℚ) (em : ElemMaps) : List (Int × ℚ) :=
  (em.allDoFs.zip em.expDoFs).map (fun p =>
    if 0 ≤ p.1 then (p.2, x p.1) else (1 - p.2, x (1 - p.1)))

/-- The writes performed by the private copy loop of one element. -/
def priWritesElem (x : Int → ℚ) (em : ElemMaps) : List (Nat × ℚ) :=
  (List.range em.nPri).map (fun j => (em.priOff + j, x (em.priDoFs.getD j 0)))

/-- The writes performed by the exposed half of the inverse reconstruction
on one element. -/
def invExpWritesElem (xE : Int → ℚ) (em : ElemMaps) : List (Int × ℚ) :=
  (em.allDoFs.zip em.expDoFs).map (fun p =>
    (((decIdx p.1 : Nat) : Int), sgnQ p.1 * xE ((decIdx p.2 : Nat) : Int)))

/-- The writes performed by the private half of the inverse reconstruction
on one element. -/
def invPriWritesElem (xP : Nat → ℚ) (em : ElemMaps) : List (Int × ℚ) :=
  (List.range em.nPri).map (fun j => (em.priDoFs.getD j 0, xP (em.priOff + j)))

/-- The private offsets of an element list form the prefix sum of the
private counts starting at `o` (as `priOffset_` does, ep.cpp 176-181). -/
def offsetsOk : List ElemMaps → Nat → Bool
  | [], _ => true
  | em :: rest, o => decide (em.priOff = o) && offsetsOk rest (o + em.nPri)

/-! ## Concrete instances used by witnesses and counterexamples -/

/-- A concrete field space: 2 elements with 1 and 2 interior dofs, 7 dofs
in total (so 4 exposed). -/
def fC2 : FES := { nElems := 2, intDof := fun i => i + 1, ndofs := 7 }

/-- A concrete symmetric 4x4 element matrix with 2 exposed and 2 private
dofs and `mpp` the identity. -/
def elmatC1 : Nat → Nat → ℚ := fun i j =>
  ([[0, 0, 1, 2], [0, 0, 3, 4], [1, 3, 1, 0], [2, 4, 0, 1]].getD i []).getD j 0

/-- The concrete element for the `Mrr` divergence: ids `[0, 1]`, the
symmetric matrix `elmatC1`, identity `mppInv`. -/
def eC1 : ElemSchur :=
  { nE := 2, nP := 2, expDoFs := [0, 1], elmat := elmatC1,
    mppInv := fun k l => if k = l then 1 else 0 }

/-- A concrete element whose single exposed dof id is negative-encoded:
true unreduced id 5 (encoded `-6`), true exposed id 0 (encoded `-1`). -/
def emC4 : ElemMaps :=
  { allDoFs := [-6], priDoFs := [], expDoFs := [-1], priOff := 0, nPri := 0 }

/-- Field configuration around `emC4`. -/
def cfgC4 : FieldCfg := { elems := [emC4], nExp := 3, nPri := 0, ndofs := 8 }

/-- The identity-valued input vector for the `emC4` test. -/
def xC4 : Int → ℚ := fun t => (t : ℚ)

/-- A concrete one-element space with one negative-encoded exposed dof
(true id 0, encoded `-1`) and one private dof (id 1). -/
def emC3 : ElemMaps :=
  { allDoFs := [-1], priDoFs := [1], expDoFs := [-1], priOff := 0, nPri := 1 }

/-- Field configuration around `emC3`: 1 exposed dof, 1 private dof. -/
def cfgC3 : FieldCfg := { elems := [emC3], nExp := 1, nPri := 1, ndofs := 2 }

/-- Concrete input vector for the round-trip counterexample. -/
def xC3 : Int → ℚ := fun t => if t = 0 then 3 else if t = 1 then 4 else 0

/-- A well-formed one-element configuration (no sign tags) used by the
round-trip witness: exposed ids `[0, 1]`, private id 2. -/
def emC3w : ElemMaps :=
  { allDoFs := [0, 1, 2], priDoFs := [2], expDoFs := [0, 1], priOff := 0,
    nPri := 1 }

/-- Field configuration around `emC3w`: 2 exposed dofs, 1 private dof. -/
def cfgC3w : FieldCfg := { elems := [emC3w], nExp := 2, nPri := 1, ndofs := 3 }

/-- Concrete input vector for the round-trip witness. -/
def xC3w : Int → ℚ := fun t => if t = 0 then 5 else if t = 1 then 7 else 11

/-- A concrete assembled `EPMatrix` in the symmetric shape (`Mpe` absent):
1 exposed dof, 2 elements with 1 private dof each. -/
def mC5 : EPMat :=
  { nExpL := 1, nExpR := 1, nPriL := 2, nPriR := 2,
    Mee := fun _ _ => 2, Mep := fun _ _ => 1, MpeOpt := none,
    nElems := 2, mpp := fun i k j => (i : ℚ) + (k : ℚ) + (j : ℚ) + 1,
    cntL := fun _ => 1, cntR := fun _ => 1 }

/-- An asymmetric (left != right) configuration for `ReducedRHS`. -/
def cfgC7F : EPCfg :=
  { leftEqRight := false, nExp := 1, nPri := 1, nElems := 1,
    Mep := fun _ _ => 1, cnt := fun _ => 1, mppInv := fun _ _ _ => 1 }

/-- A symmetric (left == right) configuration for `ReducedRHS`:
1 exposed dof, 2 elements with 1 private dof each, `mppInv i = 1/(i+1)`. -/
def cfgC7T : EPCfg :=
  { leftEqRight := true, nExp := 1, nPri := 2, nElems := 2,
    Mep := fun _ r => (r : ℚ) + 1, cnt := fun _ => 1,
    mppInv := fun i _ _ => 1 / ((i : ℚ) + 1) }

/-- The exposed restriction operator of two rank-local copies of one
shared true dof: both rows are `(1)`. -/
def peC6 : Nat → Nat → ℚ := fun _ _ => 1

/-- Initial state for the reduce idempotence counterexample. -/
def sC6 : RedState := { E := fun l => if l = 0 then 1 else 0, T := fun _ => 0 }

/-- A restriction operator with a single local copy per true dof
(`Pe^T Pe = I`): the 2x2 identity. -/
def peC6w : Nat → Nat → ℚ := fun l t => if l = t then 1 else 0

/-- Initial state for the reduce idempotence witness. -/
def sC6w : RedState := { E := fun l => (l : ℚ) + 3, T := fun _ => 0 }

/-- Concrete true-dof partition `[0, 2, 4]` for two ranks. -/
def tpartC8 : Nat → Nat := fun p => 2 * p

/-- Concrete per-rank private counts for the rewrite witness. -/
def nPriC8 : Nat → Int := fun _ => 1

/-- Concrete exposed input vector for the `Mult`/`ReducedRHS` witnesses. -/
def xEc : Nat → ℚ := fun k => (k : ℚ) + 1

/-- Concrete private input vector for the `Mult`/`ReducedRHS` witnesses. -/
def xPc : Nat → ℚ := fun k => (k : ℚ) + 10

/-- A concrete 2D mesh/collection: 1 triangle, 3 vertices, 3 edges, one
dof per vertex and per edge, the third edge reversed. -/
def meshC9 : MeshFE :=
  { dim := 2, nElems := 1, numVerts := 3, numEdges := 3, nvPoint := 1,
    neSeg := 1, elemVerts := fun _ => [0, 1, 2],
    elemEdges := fun _ => [(0, 0), (1, 0), (2, 1)],
    hasFaceDofs := fun _ => false, elemFaces := fun _ => [],
    faceGeom := fun _ => 0, fdofGeom := fun _ => 0,
    segOrd := fun o j => if o = 0 then (j : Int) else -1 - (j : Int),
    faceOrd := fun _ _ j => (j : Int) }

/-! # Theorems -/

theorem rsum_zero (f : Nat → ℚ) : rsum 0 f = 0 := rfl

theorem rsum_succ (n : Nat) (f : Nat → ℚ) : rsum (n + 1) f = rsum n f + f n := rfl

/-! ## Prefix-sum facts about the private offsets -/

theorem priOffset_eq_nPrivAux (f : FES) : ∀ i, priOffset f i = nPrivAux f i := by
  intro i
  induction i with
  | zero => rfl
  | succ n ih => simp [priOffset, nPrivAux, ih]

theorem priOffset_mono (f : FES) {i j : Nat} (h : i ≤ j) :
    priOffset f i ≤ priOffset f j := by
  induction j with
  | zero => simp_all
  | succ n ih =>
      rcases Nat.lt_or_ge i (n + 1) with hlt | hge
      · exact le_trans (ih (Nat.lt_succ_iff.mp hlt)) (Nat.le_add_right _ _)
      · have : i = n + 1 := le_antisymm h hge
        simp [this]

theorem bucket_exists (f : FES) :
    ∀ n d, d < priOffset f n →
      ∃ e, e < n ∧ priOffset f e ≤ d ∧ d < priOffset f (e + 1) := by
  intro n
  induction n with
  | zero => intro d hd; simp [priOffset] at hd
  | succ m ih =>
      intro d hd
      rcases Nat.lt_or_ge d (priOffset f m) with hlt | hge
      · obtain ⟨e, he, h1, h2⟩ := ih d hlt
        exact ⟨e, Nat.lt_succ_of_lt he, h1, h2⟩
      · exact ⟨m, Nat.lt_succ_self m, hge, hd⟩

theorem bucket_unique (f : FES) {d e1 e2 : Nat}
    (h1 : priOffset f e1 ≤ d ∧ d < priOffset f (e1 + 1))
    (h2 : priOffset f e2 ≤ d ∧ d < priOffset f (e2 + 1)) : e1 = e2 := by
  by_contra hne
  rcases Nat.lt_or_ge e1 e2 with hlt | hge
  · have : priOffset f (e1 + 1) ≤ priOffset f e2 := priOffset_mono f hlt
    omega
  · have hlt2 : e2 < e1 := lt_of_le_of_ne hge (fun hh => hne hh.symm)
    have : priOffset f (e2 + 1) ≤ priOffset f e1 := priOffset_mono f hlt2
    omega

/-- Claim C2: for every field space, the `EPDoFs` partition satisfies
`nExposed + nPrivate = totalDofs`, and every global dof lies either in the
exposed set or in exactly one element's contiguous private sub-range given
by the private-offset prefix sum; no dof is unassigned or duplicated.
(The hypothesis is the finite-element-space invariant that the interior
dof counts fit inside the total dof count.) -/
theorem C2_dof_partition (f : FES) (h : nPrivateDofs f ≤ f.ndofs) :
    nExposedDofs f + (nPrivateDofs f : Int) = (f.ndofs : Int) ∧
    ∀ d, d < f.ndofs →
      (exposedSet f d ∧ ∀ e, e < f.nElems → ¬ inPriRange f e d) ∨
      (¬ exposedSet f d ∧ ∃! e, e < f.nElems ∧ inPriRange f e d) := by
  constructor
  · simp [nExposedDofs]
  · intro d hd
    by_cases hdx : exposedSet f d
    · left
      refine ⟨hdx, fun e _ hr => ?_⟩
      have h1 := hr.1
      have : nExpN f ≤ d := le_trans (Nat.le_add_right _ _) h1
      exact absurd hdx (by simp [exposedSet]; omega)
    · right
      refine ⟨hdx, ?_⟩
      have hge : nExpN f ≤ d := Nat.le_of_not_lt hdx
      have hoffTot : priOffset f f.nElems = nPrivateDofs f :=
        priOffset_eq_nPrivAux f f.nElems
      have hdlt : d - nExpN f < priOffset f f.nElems := by
        simp [hoffTot, nExpN] at *
        omega
      obtain ⟨e, he, h1, h2⟩ := bucket_exists f f.nElems (d - nExpN f) hdlt
      refine ⟨e, ⟨he, ?_, ?_⟩, ?_⟩
      · omega
      · omega
      · rintro y ⟨-, hy1, hy2⟩
        exact @bucket_unique f (d - nExpN f) y e ⟨by omega, by omega⟩
          ⟨by omega, by omega⟩

/-- Witness for C2 at a concrete two-element space (interior counts 1 and
2, seven dofs in total). -/
theorem C2_dof_partition_witness :
    nPrivateDofs fC2 ≤ fC2.ndofs ∧
    (nExposedDofs fC2 + (nPrivateDofs fC2 : Int) = (fC2.ndofs : Int) ∧
     ∀ d, d < fC2.ndofs →
       (exposedSet fC2 d ∧ ∀ e, e < fC2.nElems → ¬ inPriRange fC2 e d) ∨
       (¬ exposedSet fC2 d ∧ ∃! e, e < fC2.nElems ∧ inPriRange fC2 e d)) :=
  ⟨by decide, C2_dof_partition fC2 (by decide)⟩

/-! ## C1: the assembled `Mrr` versus the elementwise Schur complement -/

/-- Claim C1 (code divergence): on a single element with two exposed and
two private dofs, identity `mpp`, and a symmetric element matrix, the
`Mrr` that `EPMatrix::Assemble` computes differs from the elementwise
Schur complement `mee - mep * mpp^{-1} * mpe` demanded by the spec: the
slice `&mep.Data()[jj*nPriR]` of the column-major `mep` buffer is not
column `jj` of `mpe`. -/
theorem C1_mrr_diverges_from_schur :
    assembleMrr [eC1] 0 0 = -7 ∧ schurMrr [eC1] 0 0 = -5 ∧
    assembleMrr [eC1] 0 0 ≠ schurMrr [eC1] 0 0 := by
  norm_num [assembleMrr, schurMrr, addSubMatrix, mrrCode, mrrSchur, mee, mep,
    mpe, vpR, vcMpe, mepBuf, eC1, elmatC1, rsum_succ, rsum_zero, decIdx, sgnQ]

/-! ## C4: the sign-tagged branch of initFromInterleavedVector -/

/-- Claim C4 (code divergence): for an element whose exposed dof is
negative-encoded (`expDoFs = [-6 -> -1]`, true ids 5 -> 0), the claim
requires `exposed[0] = -x[5] = -5`; the code instead leaves slot 0 at its
initial value and copies `x[1-(-6)] = x[7] = 7` un-negated into slot
`1-(-1) = 2`. -/
theorem C4_negative_branch_diverges :
    decIdx (-1) = 0 ∧ decIdx (-6) = 5 ∧
    (initFromInterleaved cfgC4 xC4).1 0 = 0 ∧
    (initFromInterleaved cfgC4 xC4).1 2 = 7 ∧
    (initFromInterleaved cfgC4 xC4).1 0 ≠ -xC4 5 := by
  norm_num [initFromInterleaved, cfgC4, emC4, xC4, writeExpElem, writePriElem,
    expStep, updI, updN, decIdx, List.range_succ, List.foldl_cons,
    List.foldl_nil, Int.toNat_ofNat]
  omega

/-! ## C3: round trip through the exposed/private split -/

/-- Claim C3 (counterexample): with one negative-encoded exposed dof the
round trip is not the identity: the original vector has `x[0] = 3` but the
reconstruction returns `0` there, because the forward split misplaces and
fails to negate the sign-tagged value. -/
theorem C3_roundTrip_counterexample :
    roundTrip cfgC3 xC3 0 = 0 ∧ xC3 0 = 3 ∧
    roundTrip cfgC3 xC3 0 ≠ xC3 0 := by
  norm_num [roundTrip, reconstructInterleaved, initFromInterleaved, cfgC3,
    emC3, xC3, writeExpElem, writePriElem, expStep, updI, updN, decIdx, sgnQ,
    List.range_succ, List.foldl_cons, List.foldl_nil, Int.toNat_ofNat]

/-! ## C6: reduce() is not idempotent on shared dofs -/

/-- Claim C6 (counterexample): with one true exposed dof shared by two
rank-local copies (`Pe` the 2x1 all-ones operator), a second
`updateParExposedDoFs` doubles the value: the exposed vector holds `2`
after two calls but `1` after one. -/
theorem C6_reduce_not_idempotent :
    (reduceOnce 2 1 peC6 (reduceOnce 2 1 peC6 sC6)).E 0 = 2 ∧
    (reduceOnce 2 1 peC6 sC6).E 0 = 1 ∧
    (reduceOnce 2 1 peC6 (reduceOnce 2 1 peC6 sC6)).E 0 ≠
      (reduceOnce 2 1 peC6 sC6).E 0 := by
  norm_num [reduceOnce, peC6, sC6, rsum_succ, rsum_zero]

/-! ## Write-list evaluation lemmas -/

theorem applyWritesI_eval_keep (t : Int) (v : ℚ) :
    ∀ (l : List (Int × ℚ)) (s : Int → ℚ),
      (∀ p ∈ l, p.1 = t → p.2 = v) → s t = v → applyWritesI l s t = v := by
  intro l
  induction l with
  | nil => intro s _ hs; exact hs
  | cons p r ih =>
      intro s hall hs
      show applyWritesI r (updI s p.1 p.2) t = v
      refine ih _ (fun q hq => hall q (List.mem_cons_of_mem _ hq)) ?_
      by_cases hp : t = p.1
      · have : p.2 = v := hall p (List.mem_cons_self p r) hp.symm
        simp [updI, hp, this]
      · simp [updI, hp, hs]

theorem applyWritesI_eval_of_mem (t : Int) (v : ℚ) :
    ∀ (l : List (Int × ℚ)) (s : Int → ℚ),
      (∀ p ∈ l, p.1 = t → p.2 = v) → (∃ p ∈ l, p.1 = t) →
      applyWritesI l s t = v := by
  intro l
  induction l with
  | nil => rintro s _ ⟨p, hp, -⟩; simp at hp
  | cons p r ih =>
      rintro s hall ⟨q, hq, hqt⟩
      show applyWritesI r (updI s p.1 p.2) t = v
      rcases List.mem_cons.mp hq with rfl | hqr
      · refine applyWritesI_eval_keep t v r _
          (fun w hw => hall w (List.mem_cons_of_mem _ hw)) ?_
        have hv : q.2 = v := hall q (List.mem_cons_self q r) hqt
        simp [updI, hqt.symm, hv]
      · exact ih _ (fun w hw => hall w (List.mem_cons_of_mem _ hw)) ⟨q, hqr, hqt⟩

theorem applyWritesN_eval_of_not_mem (t : Nat) :
    ∀ (l : List (Nat × ℚ)) (s : Nat → ℚ),
      (∀ p ∈ l, p.1 ≠ t) → applyWritesN l s t = s t := by
  intro l
  induction l with
  | nil => intro s _; rfl
  | cons p r ih =>
      intro s hall
      show applyWritesN r (updN s p.1 p.2) t = s t
      rw [ih _ (fun q hq => hall q (List.mem_cons_of_mem _ hq))]
      have : t ≠ p.1 := fun h => hall p (List.mem_cons_self p r) h.symm
      simp [updN, this]

theorem applyWritesN_eval_keep (t : Nat) (v : ℚ) :
    ∀ (l : List (Nat × ℚ)) (s : Nat → ℚ),
      (∀ p ∈ l, p.1 = t → p.2 = v) → s t = v → applyWritesN l s t = v := by
  intro l
  induction l with
  | nil => intro s _ hs; exact hs
  | cons p r ih =>
      intro s hall hs
      show applyWritesN r (updN s p.1 p.2) t = v
      refine ih _ (fun q hq => hall q (List.mem_cons_of_mem _ hq)) ?_
      by_cases hp : t = p.1
      · have : p.2 = v := hall p (List.mem_cons_self p r) hp.symm
        simp [updN, hp, this]
      · simp [updN, hp, hs]

theorem applyWritesN_eval_of_mem (t : Nat) (v : ℚ) :
    ∀ (l : List (Nat × ℚ)) (s : Nat → ℚ),
      (∀ p ∈ l, p.1 = t → p.2 = v) → (∃ p ∈ l, p.1 = t) →
      applyWritesN l s t = v := by
  intro l
  induction l with
  | nil => rintro s _ ⟨p, hp, -⟩; simp at hp
  | cons p r ih =>
      rintro s hall ⟨q, hq, hqt⟩
      show applyWritesN r (updN s p.1 p.2) t = v
      rcases List.mem_cons.mp hq with rfl | hqr
      · refine applyWritesN_eval_keep t v r _
          (fun w hw => hall w (List.mem_cons_of_mem _ hw)) ?_
        have hv : q.2 = v := hall q (List.mem_cons_self q r) hqt
        simp [updN, hqt.symm, hv]
      · exact ih _ (fun w hw => hall w (List.mem_cons_of_mem _ hw)) ⟨q, hqr, hqt⟩

theorem applyWritesI_append (a b : List (Int × ℚ)) (s : Int → ℚ) :
    applyWritesI (a ++ b) s = applyWritesI b (applyWritesI a s) := by
  unfold applyWritesI
  rw [List.foldl_append]

/-! ## The copy loops as write lists -/

theorem writeExpElem_eq_applyWrites (x : Int → ℚ) (em : ElemMaps)
    (xE : Int → ℚ) :
    writeExpElem x em xE = applyWritesI (expWritesElem x em) xE := by
  unfold writeExpElem applyWritesI expWritesElem
  rw [List.foldl_map]
  congr 1
  funext acc p
  by_cases h : 0 ≤ p.1 <;> simp [expStep, h]

theorem writePriElem_eq_applyWrites (x : Int → ℚ) (em : ElemMaps)
    (xP : Nat → ℚ) :
    writePriElem x em xP = applyWritesN (priWritesElem x em) xP := by
  unfold writePriElem applyWritesN priWritesElem
  rw [List.foldl_map]

theorem foldl_applyWritesI_flatMap (g : ElemMaps → List (Int × ℚ)) :
    ∀ (ems : List ElemMaps) (s : Int → ℚ),
      ems.foldl (fun acc em => applyWritesI (g em) acc) s =
        applyWritesI (ems.flatMap g) s := by
  intro ems
  induction ems with
  | nil => intro s; rfl
  | cons em r ih =>
      intro s
      rw [List.foldl_cons, List.flatMap_cons, applyWritesI_append, ih]

theorem reconBody_eq (xE : Int → ℚ) (xP : Nat → ℚ) (em : ElemMaps)
    (acc : Int → ℚ) :
    (List.range em.nPri).foldl
      (fun a j => updI a (em.priDoFs.getD j 0) (xP (em.priOff + j)))
      ((em.allDoFs.zip em.expDoFs).foldl
        (fun a p => updI a ((decIdx p.1 : Nat) : Int)
          (sgnQ p.1 * xE ((decIdx p.2 : Nat) : Int))) acc) =
    applyWritesI (invExpWritesElem xE em ++ invPriWritesElem xP em) acc := by
  rw [applyWritesI_append]
  unfold applyWritesI invExpWritesElem invPriWritesElem
  rw [List.foldl_map, List.foldl_map]

/-! ## Forward facts about initFromInterleavedVector -/

theorem init_fst_snd (cfg : FieldCfg) (x : Int → ℚ) :
    (initFromInterleaved cfg x).1 =
      cfg.elems.foldl (fun acc em => writeExpElem x em acc) (fun _ => 0) ∧
    (initFromInterleaved cfg x).2 =
      cfg.elems.foldl (fun acc em => writePriElem x em acc) (fun _ => 0) := by
  have h : ∀ (ems : List ElemMaps) (a : Int → ℚ) (b : Nat → ℚ),
      ems.foldl (fun acc em =>
          (writeExpElem x em acc.1, writePriElem x em acc.2)) (a, b) =
        (ems.foldl (fun acc em => writeExpElem x em acc) a,
         ems.foldl (fun acc em => writePriElem x em acc) b) := by
    intro ems
    induction ems with
    | nil => intro a b; rfl
    | cons em r ih =>
        intro a b
        rw [List.foldl_cons, List.foldl_cons, List.foldl_cons]
        exact ih _ _
  unfold initFromInterleaved
  rw [h]
  exact ⟨rfl, rfl⟩

theorem exp_forward (x : Int → ℚ) (ems : List ElemMaps)
    (hpairs : ∀ em ∈ ems, ∀ p ∈ em.allDoFs.zip em.expDoFs,
      0 ≤ p.1 ∧ p.2 = p.1)
    (t : Int)
    (hmem : ∃ em ∈ ems, ∃ p ∈ em.allDoFs.zip em.expDoFs, p.1 = t) :
    (ems.foldl (fun acc em => writeExpElem x em acc) (fun _ => 0)) t = x t := by
  have hconv : ems.foldl (fun acc em => writeExpElem x em acc) (fun _ => 0) =
      applyWritesI (ems.flatMap (expWritesElem x)) (fun _ => 0) := by
    rw [← foldl_applyWritesI_flatMap]
    congr 1
    funext acc em
    rw [writeExpElem_eq_applyWrites]
  rw [hconv]
  apply applyWritesI_eval_of_mem
  · intro p hp hpt
    obtain ⟨em, hem, hpe⟩ := List.mem_flatMap.mp hp
    obtain ⟨q, hq, rfl⟩ := List.mem_map.mp hpe
    obtain ⟨hq1, hq2⟩ := hpairs em hem q hq
    rw [if_pos hq1] at hpt ⊢
    have : q.1 = t := by
      have h1 : q.2 = t := hpt
      rw [← hq2]; exact h1
    show x q.1 = x t
    rw [this]
  · obtain ⟨em, hem, q, hq, hqt⟩ := hmem
    refine ⟨if 0 ≤ q.1 then (q.2, x q.1) else (1 - q.2, x (1 - q.1)),
      List.mem_flatMap.mpr ⟨em, hem, List.mem_map.mpr ⟨q, hq, rfl⟩⟩, ?_⟩
    obtain ⟨hq1, hq2⟩ := hpairs em hem q hq
    rw [if_pos hq1]
    show q.2 = t
    rw [hq2, hqt]

theorem pri_forward_frame (x : Int → ℚ) :
    ∀ (ems : List ElemMaps) (o : Nat) (y : Nat → ℚ) (t : Nat),
      offsetsOk ems o = true → t < o →
      (ems.foldl (fun acc em => writePriElem x em acc) y) t = y t := by
  intro ems
  induction ems with
  | nil => intro o y t _ _; rfl
  | cons em r ih =>
      intro o y t hok ht
      simp only [offsetsOk, Bool.and_eq_true, decide_eq_true_eq] at hok
      obtain ⟨hoff, hrest⟩ := hok
      rw [List.foldl_cons, ih (o + em.nPri) _ t hrest (by omega),
        writePriElem_eq_applyWrites]
      apply applyWritesN_eval_of_not_mem
      intro p hp
      obtain ⟨j, hj, rfl⟩ := List.mem_map.mp hp
      show em.priOff + j ≠ t
      omega

theorem pri_forward (x : Int → ℚ) :
    ∀ (ems : List ElemMaps) (o : Nat) (y : Nat → ℚ),
      offsetsOk ems o = true →
      ∀ em ∈ ems, ∀ j, j < em.nPri →
        (ems.foldl (fun acc em2 => writePriElem x em2 acc) y)
            (em.priOff + j) = x (em.priDoFs.getD j 0) := by
  intro ems
  induction ems with
  | nil => intro o y _ em hem; simp at hem
  | cons hd r ih =>
      intro o y hok em hem j hj
      simp only [offsetsOk, Bool.and_eq_true, decide_eq_true_eq] at hok
      obtain ⟨hoff, hrest⟩ := hok
      rw [List.foldl_cons]
      rcases List.mem_cons.mp hem with rfl | hmem
      · rw [pri_forward_frame x r (o + em.nPri) _ (em.priOff + j) hrest
          (by omega), writePriElem_eq_applyWrites]
        apply applyWritesN_eval_of_mem
        · intro p hp hpt
          obtain ⟨j2, hj2, rfl⟩ := List.mem_map.mp hp
          have hj2j : j2 = j := by
            have : em.priOff + j2 = em.priOff + j := hpt
            omega
          show x (em.priDoFs.getD j2 0) = x (em.priDoFs.getD j 0)
          rw [hj2j]
        · exact ⟨(em.priOff + j, x (em.priDoFs.getD j 0)),
            List.mem_map.mpr ⟨j, List.mem_range.mpr hj, rfl⟩, rfl⟩
      · exact ih (o + hd.nPri) _ hrest em hmem j hj

/-! ## C3 (amended): the round trip on untagged spaces -/

/-- Claim C3 (amended): the split followed by the spec-modelled inverse
reconstruction reproduces the interleaved vector exactly on every global
dof, provided no element dof id carries an orientation sign tag (the
sign-tagged branch of the source is broken, see the counterexample).  The
hypotheses state the `FiniteElementSpace` invariants the source relies
on: exposed ids repeat the unreduced ids (`p.2 = p.1`, nonnegative),
the private offsets chain as the prefix sum built by `EPDoFs`, and
every global dof is some element's exposed or private dof. -/
theorem C3_roundTrip_amended (cfg : FieldCfg) (x : Int → ℚ)
    (hpairs : ∀ em ∈ cfg.elems, ∀ p ∈ em.allDoFs.zip em.expDoFs,
      0 ≤ p.1 ∧ p.2 = p.1)
    (hchain : offsetsOk cfg.elems 0 = true)
    (hcov : ∀ tn : Nat, tn < cfg.ndofs →
      (∃ em ∈ cfg.elems, ∃ p ∈ em.allDoFs.zip em.expDoFs, p.1 = (tn : Int)) ∨
      (∃ em ∈ cfg.elems, ∃ j, j < em.nPri ∧
        em.priDoFs.getD j 0 = (tn : Int))) :
    ∀ tn : Nat, tn < cfg.ndofs → roundTrip cfg x (tn : Int) = x (tn : Int) := by
  intro tn htn
  obtain ⟨hfst, hsnd⟩ := init_fst_snd cfg x
  have hExp : ∀ t : Int,
      (∃ em ∈ cfg.elems, ∃ p ∈ em.allDoFs.zip em.expDoFs, p.1 = t) →
      (initFromInterleaved cfg x).1 t = x t := by
    intro t ht
    rw [hfst]
    exact exp_forward x cfg.elems hpairs t ht
  have hPri : ∀ em ∈ cfg.elems, ∀ j, j < em.nPri →
      (initFromInterleaved cfg x).2 (em.priOff + j) =
        x (em.priDoFs.getD j 0) := by
    intro em hem j hj
    rw [hsnd]
    exact pri_forward x cfg.elems 0 _ hchain em hem j hj
  show reconstructInterleaved cfg (initFromInterleaved cfg x).1
      (initFromInterleaved cfg x).2 (tn : Int) = x (tn : Int)
  have hrec : reconstructInterleaved cfg (initFromInterleaved cfg x).1
      (initFromInterleaved cfg x).2 =
      applyWritesI (cfg.elems.flatMap (fun em =>
        invExpWritesElem (initFromInterleaved cfg x).1 em ++
        invPriWritesElem (initFromInterleaved cfg x).2 em)) (fun _ => 0) := by
    unfold reconstructInterleaved
    rw [← foldl_applyWritesI_flatMap]
    congr 1
    funext acc em
    exact reconBody_eq _ _ em acc
  rw [hrec]
  apply applyWritesI_eval_of_mem
  · intro p hp hpt
    obtain ⟨em, hem, hpe⟩ := List.mem_flatMap.mp hp
    rcases List.mem_append.mp hpe with hec | hpc
    · obtain ⟨q, hq, rfl⟩ := List.mem_map.mp hec
      obtain ⟨hq1, hq2⟩ := hpairs em hem q hq
      have hd1 : ((decIdx q.1 : Nat) : Int) = q.1 := by
        rw [decIdx, if_pos hq1]
        exact Int.toNat_of_nonneg hq1
      have hd2 : ((decIdx q.2 : Nat) : Int) = q.1 := by
        rw [hq2]; exact hd1
      have hs : sgnQ q.1 = 1 := by rw [sgnQ, if_pos hq1]
      have hq1t : q.1 = (tn : Int) := by
        have h1 : ((decIdx q.1 : Nat) : Int) = (tn : Int) := hpt
        rw [← hd1]; exact h1
      show sgnQ q.1 * (initFromInterleaved cfg x).1 ((decIdx q.2 : Nat) : Int)
        = x (tn : Int)
      rw [hs, one_mul, hd2, hq1t]
      exact hExp (tn : Int) ⟨em, hem, q, hq, hq1t ▸ rfl⟩
    · obtain ⟨j, hj, rfl⟩ := List.mem_map.mp hpc
      have hjlt : j < em.nPri := List.mem_range.mp hj
      have h1 := hPri em hem j hjlt
      show (initFromInterleaved cfg x).2 (em.priOff + j) = x (tn : Int)
      rw [h1]
      have h2 : em.priDoFs.getD j 0 = (tn : Int) := hpt
      rw [h2]
  · rcases hcov tn htn with ⟨em, hem, q, hq, hqt⟩ | ⟨em, hem, j, hj, hjt⟩
    · refine ⟨(((decIdx q.1 : Nat) : Int),
        sgnQ q.1 * (initFromInterleaved cfg x).1 ((decIdx q.2 : Nat) : Int)),
        List.mem_flatMap.mpr ⟨em, hem, List.mem_append.mpr
          (Or.inl (List.mem_map.mpr ⟨q, hq, rfl⟩))⟩, ?_⟩
      have hq1 := (hpairs em hem q hq).1
      show ((decIdx q.1 : Nat) : Int) = (tn : Int)
      rw [decIdx, if_pos hq1, Int.toNat_of_nonneg hq1, hqt]
    · exact ⟨(em.priDoFs.getD j 0,
        (initFromInterleaved cfg x).2 (em.priOff + j)),
        List.mem_flatMap.mpr ⟨em, hem, List.mem_append.mpr
          (Or.inr (List.mem_map.mpr ⟨j, List.mem_range.mpr hj, rfl⟩))⟩, hjt⟩

/-- Witness for the amended C3 at a concrete untagged one-element space
with two exposed dofs and one private dof. -/
theorem C3_roundTrip_witness :
    (∀ em ∈ cfgC3w.elems, ∀ p ∈ em.allDoFs.zip em.expDoFs,
      0 ≤ p.1 ∧ p.2 = p.1) ∧
    offsetsOk cfgC3w.elems 0 = true ∧
    (∀ tn : Nat, tn < cfgC3w.ndofs →
      (∃ em ∈ cfgC3w.elems, ∃ p ∈ em.allDoFs.zip em.expDoFs,
        p.1 = (tn : Int)) ∨
      (∃ em ∈ cfgC3w.elems, ∃ j, j < em.nPri ∧
        em.priDoFs.getD j 0 = (tn : Int))) ∧
    (∀ tn : Nat, tn < cfgC3w.ndofs →
      roundTrip cfgC3w xC3w (tn : Int) = xC3w (tn : Int)) :=
  ⟨by decide, by decide, by decide,
   C3_roundTrip_amended cfgC3w xC3w (by decide) (by decide) (by decide)⟩

/-! ## C6 (amended): when reduce() is idempotent -/

theorem rsum_congr (n : Nat) (f g : Nat → ℚ) (h : ∀ i, i < n → f i = g i) :
    rsum n f = rsum n g := by
  induction n with
  | zero => rfl
  | succ m ih =>
      rw [rsum_succ, rsum_succ, ih (fun i hi => h i (Nat.lt_succ_of_lt hi)),
        h m (Nat.lt_succ_self m)]

theorem rsum_eq_sum (n : Nat) (f : Nat → ℚ) :
    rsum n f = Finset.sum (Finset.range n) f := by
  induction n with
  | zero => simp [rsum]
  | succ m ih => rw [rsum_succ, ih, Finset.sum_range_succ]

/-- Claim C6 (amended): `updateParExposedDoFs` applied twice agrees with a
single application exactly on the orthonormality assumption
`Pe^T Pe = I` (every true exposed dof carried by a single unit rank-local
copy); with shared dofs the second call scales each true dof by its
replication count, as the counterexample shows. -/
theorem C6_reduce_idempotent_of_unshared (m n : Nat) (Pe : Nat → Nat → ℚ)
    (s : RedState)
    (h : ∀ t, t < n → ∀ u, u < n →
      rsum m (fun l => Pe l t * Pe l u) = if t = u then 1 else 0) :
    (∀ t, t < n →
      (reduceOnce m n Pe (reduceOnce m n Pe s)).T t =
        (reduceOnce m n Pe s).T t) ∧
    (∀ l,
      (reduceOnce m n Pe (reduceOnce m n Pe s)).E l =
        (reduceOnce m n Pe s).E l) := by
  have key : ∀ t, t < n →
      rsum m (fun l => Pe l t * rsum n (fun u => Pe l u *
        rsum m (fun l2 => Pe l2 u * s.E l2))) =
      rsum m (fun l => Pe l t * s.E l) := by
    intro t ht
    have h1 : ∀ l, Pe l t * rsum n (fun u => Pe l u *
        rsum m (fun l2 => Pe l2 u * s.E l2)) =
        Finset.sum (Finset.range n) (fun u => Pe l t * (Pe l u *
          rsum m (fun l2 => Pe l2 u * s.E l2))) := by
      intro l
      rw [rsum_eq_sum n, Finset.mul_sum]
    rw [rsum_eq_sum m, Finset.sum_congr rfl (fun l _ => h1 l), Finset.sum_comm]
    have h2 : ∀ u ∈ Finset.range n,
        Finset.sum (Finset.range m) (fun l => Pe l t * (Pe l u *
          rsum m (fun l2 => Pe l2 u * s.E l2))) =
        (if t = u then 1 else 0) * rsum m (fun l2 => Pe l2 u * s.E l2) := by
      intro u hu
      have h3 : Finset.sum (Finset.range m) (fun l => Pe l t * (Pe l u *
          rsum m (fun l2 => Pe l2 u * s.E l2))) =
          (Finset.sum (Finset.range m) (fun l => Pe l t * Pe l u)) *
            rsum m (fun l2 => Pe l2 u * s.E l2) := by
        rw [Finset.sum_mul]
        exact Finset.sum_congr rfl (fun l _ => by ring)
      rw [h3, ← rsum_eq_sum, h t ht u (Finset.mem_range.mp hu)]
    rw [Finset.sum_congr rfl h2]
    simp only [ite_mul, one_mul, zero_mul, Finset.sum_ite_eq, Finset.mem_range]
    rw [if_pos ht, rsum_eq_sum]
  have hT : ∀ t, t < n →
      (reduceOnce m n Pe (reduceOnce m n Pe s)).T t =
        (reduceOnce m n Pe s).T t := fun t ht => key t ht
  constructor
  · exact hT
  · intro l
    show rsum n (fun t => Pe l t *
        (reduceOnce m n Pe (reduceOnce m n Pe s)).T t) =
      rsum n (fun t => Pe l t * (reduceOnce m n Pe s).T t)
    exact rsum_congr n _ _ (fun t ht => by rw [hT t ht])

/-- Witness for the amended C6 at the 2x2 identity restriction operator. -/
theorem C6_reduce_idempotent_witness :
    (∀ t, t < 2 → ∀ u, u < 2 →
      rsum 2 (fun l => peC6w l t * peC6w l u) = if t = u then 1 else 0) ∧
    ((∀ t, t < 2 →
      (reduceOnce 2 2 peC6w (reduceOnce 2 2 peC6w sC6w)).T t =
        (reduceOnce 2 2 peC6w sC6w).T t) ∧
    (∀ l,
      (reduceOnce 2 2 peC6w (reduceOnce 2 2 peC6w sC6w)).E l =
        (reduceOnce 2 2 peC6w sC6w).E l)) := by
  have hw : ∀ t, t < 2 → ∀ u, u < 2 →
      rsum 2 (fun l => peC6w l t * peC6w l u) = if t = u then 1 else 0 := by
    intro t ht u hu
    interval_cases t <;> interval_cases u <;>
      norm_num [rsum_succ, rsum_zero, peC6w]
  exact ⟨hw, C6_reduce_idempotent_of_unshared 2 2 peC6w sC6w hw⟩

/-! ## C8: the distributed column rewrite -/

theorem tpart_le (tpart : Nat → Nat) (N : Nat)
    (hmono : ∀ p, p < N → tpart p ≤ tpart (p + 1)) :
    ∀ a b, a ≤ b → b ≤ N → tpart a ≤ tpart b := by
  intro a b hab hbN
  induction b with
  | zero => simp [Nat.le_zero.mp hab]
  | succ k ih =>
      rcases Nat.lt_or_ge a (k + 1) with h1 | h2
      · exact le_trans (ih (by omega) (by omega)) (hmono k (by omega))
      · have : a = k + 1 := le_antisymm hab h2
        simp [this]

/-- Claim C8: during the `ParEPDoFs` restriction-operator rewrite, a
nonzero whose column index lies beyond every rank's true-dof column range
makes the rank scan fail fatally (**PartitionInconsistency**) instead of
producing a compacted column index.  The hypotheses state that the
partition boundaries are nondecreasing, which `hypre` guarantees for a
finalized operator. -/
theorem C8_rewrite_fails_outside (tpart : Nat → Nat) (nPri : Nat → Int)
    (numProcs c : Nat)
    (hmono : ∀ p, p < numProcs → tpart p ≤ tpart (p + 1))
    (hout : tpart numProcs ≤ c) :
    rewriteCol tpart nPri numProcs c =
      Except.error EPError.partitionInconsistency := by
  have hnone : findRank tpart numProcs c = none := by
    unfold findRank
    rw [List.find?_eq_none]
    intro r hr
    have hrN : r < numProcs := List.mem_range.mp hr
    have hle : tpart (r + 1) ≤ tpart numProcs :=
      tpart_le tpart numProcs hmono (r + 1) numProcs hrN (le_refl _)
    simp only [decide_eq_true_eq]
    omega
  unfold rewriteCol
  rw [hnone]

/-- Witness for C8: partition `[0, 2, 4]` over two ranks, column 5. -/
theorem C8_rewrite_witness :
    (∀ p, p < 2 → tpartC8 p ≤ tpartC8 (p + 1)) ∧ tpartC8 2 ≤ 5 ∧
    rewriteCol tpartC8 nPriC8 2 5 =
      Except.error EPError.partitionInconsistency :=
  ⟨by decide, by decide,
   C8_rewrite_fails_outside tpartC8 nPriC8 2 5 (by decide) (by decide)⟩

/-! ## C9: GetElementDofs and the cached table -/

/-- Claim C9 (counterexample to the caching trigger): a first call to
`GetElementDofs` on a fresh `EPDoFs` leaves the element-to-dof table
unbuilt — the table is only cached by an explicit
`BuildElementToDofTable` call, never by `GetElementDofs` itself. -/
theorem C9_first_call_caches_nothing :
    (getElementDofs meshC9 { table? := none } 0).2.table? = none := rfl

/-- Claim C9 (amended): the element-to-dof table is cached by an explicit
`BuildElementToDofTable` call (not by the first `GetElementDofs` call);
once the table is built, every `GetElementDofs` call returns, via table
lookup, exactly the same ordered sign-tagged id array as the direct
vertex/edge/face derivation. -/
theorem C9_table_lookup_eq_direct (M : MeshFE) (elem : Nat)
    (h : elem < M.nElems) :
    (getElementDofs M (buildElementToDofTable M { table? := none }) elem).1 =
      directDofs M elem := by
  show (List.map (fun i => (getElementDofs M { table? := none } i).1)
      (List.range M.nElems)).getD elem [] = directDofs M elem
  rw [List.getD_eq_getElem?_getD, List.getElem?_map, List.getElem?_range h]
  rfl

/-- Witness for the amended C9 at the concrete triangle mesh (the derived
row contains the sign-encoded id `-6` for the reversed edge). -/
theorem C9_table_lookup_witness :
    0 < meshC9.nElems ∧
    (getElementDofs meshC9 (buildElementToDofTable meshC9 { table? := none })
        0).1 = directDofs meshC9 0 :=
  ⟨by decide, C9_table_lookup_eq_direct meshC9 0 (by decide)⟩

/-! ## The per-element overwrite loop of Mult / ReducedRHS -/

theorem offW_mono_of_chain (offW hgt : Nat → Nat) (n : Nat)
    (hchain : ∀ i, i < n → offW i + hgt i ≤ offW (i + 1)) :
    ∀ a b, a ≤ b → b ≤ n → offW a ≤ offW b := by
  intro a b hab hbn
  induction b with
  | zero => simp [Nat.le_zero.mp hab]
  | succ k ih =>
      rcases Nat.lt_or_ge a (k + 1) with h1 | h2
      · exact le_trans (ih (by omega) (by omega))
          (le_trans (Nat.le_add_right _ _) (hchain k (by omega)))
      · have : a = k + 1 := le_antisymm hab h2
        simp [this]

/-- Evaluating the sequential per-element overwrite loop inside element
`e`'s slice: when the slices are orderly disjoint, later elements never
clobber element `e`'s rows. -/
theorem blockLoop_eval (offW hgt : Nat → Nat) (val : Nat → Nat → ℚ)
    (y : Nat → ℚ) :
    ∀ n, (∀ i, i < n → offW i + hgt i ≤ offW (i + 1)) →
    ∀ e k, e < n → k < hgt e →
      blockLoop offW hgt val n y (offW e + k) = val e k := by
  intro n
  induction n with
  | zero => intro _ e k he _; exact absurd he (Nat.not_lt_zero e)
  | succ m ih =>
      intro hchain e k he hk
      by_cases hem : e = m
      · subst hem
        show blockWrite (offW e) (hgt e) (val e)
          (blockLoop offW hgt val e y) (offW e + k) = val e k
        unfold blockWrite
        rw [if_pos ⟨Nat.le_add_right _ _, by omega⟩]
        congr 1
        omega
      · have hlt : e < m := by omega
        have hle : offW (e + 1) ≤ offW m :=
          offW_mono_of_chain offW hgt (m + 1) hchain (e + 1) m (by omega)
            (by omega)
        have hnot : ¬ (offW m ≤ offW e + k ∧ offW e + k < offW m + hgt m) := by
          have h2 : offW e + k < offW (e + 1) :=
            lt_of_lt_of_le (by omega) (hchain e (by omega))
          omega
        show blockWrite (offW m) (hgt m) (val m)
          (blockLoop offW hgt val m y) (offW e + k) = val e k
        unfold blockWrite
        rw [if_neg hnot]
        exact ih (fun i hi => hchain i (by omega)) e k hlt hk

/-! ## C5: EPMatrix::Mult -/

/-- Claim C5: for an assembled operator and any input field, `Mult`
produces `y.exposed = Mee * x.exposed + Mep * x.private`, and on each
element's private slice `y.private` is `mpp(elem) * x.private[range]`
plus the `Mpe * x.exposed` contribution (or `Mep^T * x.exposed` when
`Mpe` was not materialized, i.e. left == right).  The hypothesis states
that left and right partitions assign each element the same private
count, which makes the per-element slices well formed (it holds trivially
in the symmetric configuration). -/
theorem C5_mult_characterization (M : EPMat) (xE xP : Nat → ℚ)
    (hcnt : ∀ i, i < M.nElems → M.cntL i = M.cntR i) :
    (∀ k, (epMult M xE xP).1 k =
      rsum M.nExpR (fun j => M.Mee k j * xE j) +
      rsum M.nPriR (fun j => M.Mep k j * xP j)) ∧
    (∀ e k, e < M.nElems → k < M.cntL e →
      (epMult M xE xP).2 (offR M e + k) =
        rsum (M.cntR e) (fun j => M.mpp e k j * xP (offL M e + j)) +
        (match M.MpeOpt with
         | some Mpe => rsum M.nExpR (fun j => Mpe (offR M e + k) j * xE j)
         | none => rsum M.nExpL (fun l => M.Mep l (offR M e + k) * xE l))) := by
  constructor
  · intro k; rfl
  · intro e k he hk
    have hchain : ∀ i, i < M.nElems → offR M i + M.cntL i ≤ offR M (i + 1) := by
      intro i hi
      have h1 : offR M (i + 1) = offR M i + M.cntR i := rfl
      rw [h1, hcnt i hi]
    have h2 := blockLoop_eval (offR M) M.cntL
      (fun i k2 => rsum (M.cntR i) (fun j => M.mpp i k2 j * xP (offL M i + j)))
      (fun _ => 0) M.nElems hchain e k he hk
    show blockLoop (offR M) M.cntL
        (fun i k2 => rsum (M.cntR i) (fun j => M.mpp i k2 j * xP (offL M i + j)))
        M.nElems (fun _ => 0) (offR M e + k) +
      (match M.MpeOpt with
       | some Mpe => rsum M.nExpR (fun j => Mpe (offR M e + k) j * xE j)
       | none => rsum M.nExpL (fun l => M.Mep l (offR M e + k) * xE l)) = _
    rw [h2]

/-- Witness for C5 at a concrete symmetric-shape operator (`Mpe` absent),
evaluated inside element 1's private slice. -/
theorem C5_mult_witness :
    (∀ i, i < mC5.nElems → mC5.cntL i = mC5.cntR i) ∧
    (epMult mC5 xEc xPc).2 (offR mC5 1 + 0) =
      rsum (mC5.cntR 1) (fun j => mC5.mpp 1 0 j * xPc (offL mC5 1 + j)) +
      rsum mC5.nExpL (fun l => mC5.Mep l (offR mC5 1 + 0) * xEc l) := by
  have hcnt : ∀ i, i < mC5.nElems → mC5.cntL i = mC5.cntR i := fun i _ => rfl
  exact ⟨hcnt, (C5_mult_characterization mC5 xEc xPc hcnt).2 1 0 (by decide)
    (by decide)⟩

/-! ## C7: EPMatrix::ReducedRHS and the symmetric-only guard -/

/-- Claim C7: `ReducedRHS` is valid only in the symmetric configuration.
Constructed with left != right partitions, `Assemble` leaves
`MppInv_`/`vecp_`/`reducedRHS_` null and the call fails fatally
(**UnsupportedConfiguration**) producing no result; with left == right it
returns `r = x.exposed - Mep * vecp` where `vecp` holds, on each
element's private slice, `mpp(elem)^{-1} * x.private[range]`. -/
theorem C7_reducedRHS_config (c : EPCfg) (xE xP : Nat → ℚ) :
    (c.leftEqRight = false →
      reducedRHS (assembleAux c) xE xP =
        Except.error EPError.unsupportedConfiguration) ∧
    (c.leftEqRight = true →
      ∃ vecp : Nat → ℚ,
        (∀ e k, e < c.nElems → k < c.cnt e →
          vecp (prefixSum c.cnt e + k) =
            rsum (c.cnt e)
              (fun j => c.mppInv e k j * xP (prefixSum c.cnt e + j))) ∧
        reducedRHS (assembleAux c) xE xP =
          Except.ok (fun k => xE k -
            rsum c.nPri (fun r => c.Mep k r * vecp r))) := by
  constructor
  · intro h
    simp [reducedRHS, assembleAux, h]
  · intro h
    refine ⟨blockLoop (prefixSum c.cnt) c.cnt
      (fun i k => rsum (c.cnt i)
        (fun j => c.mppInv i k j * xP (prefixSum c.cnt i + j)))
      c.nElems (fun _ => 0), ?_, ?_⟩
    · intro e k he hk
      exact blockLoop_eval (prefixSum c.cnt) c.cnt _ (fun _ => 0) c.nElems
        (fun i _ => Nat.le_of_eq rfl) e k he hk
    · simp [reducedRHS, assembleAux, h]

/-- Witness for C7: the error branch at an asymmetric configuration and
the formula branch at a symmetric two-element configuration. -/
theorem C7_reducedRHS_witness :
    reducedRHS (assembleAux cfgC7F) xEc xPc =
      Except.error EPError.unsupportedConfiguration ∧
    (∃ vecp : Nat → ℚ,
      (∀ e k, e < cfgC7T.nElems → k < cfgC7T.cnt e →
        vecp (prefixSum cfgC7T.cnt e + k) =
          rsum (cfgC7T.cnt e)
            (fun j => cfgC7T.mppInv e k j * xPc (prefixSum cfgC7T.cnt e + j))) ∧
      reducedRHS (assembleAux cfgC7T) xEc xPc =
        Except.ok (fun k => xEc k -
          rsum cfgC7T.nPri (fun r => cfgC7T.Mep k r * vecp r))) :=
  ⟨(C7_reducedRHS_config cfgC7F xEc xPc).1 rfl,
   (C7_reducedRHS_config cfgC7T xEc xPc).2 rfl⟩

/-! ## C10: the generic Operator entry point -/

/-- Claim C10: for every pair of plain vectors, the Vector overload
`EPMatrix::Mult(const Vector&, Vector&)` hits `assert(false)` and never
produces a result. -/
theorem C10_vector_mult_asserts (x y : Nat → ℚ) :
    epMultVector x y = Except.error EPError.assertionFailed := rfl

end MfemEP
